import Mathlib

/-!
Shallow embedding of the numerical-linear-algebra core of the `dev_utils`
repository (notebooks `NumericalAnalysis`): LU-style factorizers
(`doolittle`, `choleski`), Gaussian elimination with partial pivoting
(`gauss_partial_pivoting`, `gauss_scaled_pivoting`) and the iterative
solvers (`jacobi`, `conjugate_gradient`, ...).

Scalars: the Python code computes with IEEE floats.  We model a float
value as an exact rational (`F.fin q`) or a non-finite value `F.nf`
standing for the IEEE non-finite results (`nan`, `±inf`).  Division by
zero and square roots of negative numbers produce `F.nf`, and `F.nf`
propagates through arithmetic, mirroring NaN propagation; comparisons
involving `F.nf` are false, mirroring NaN comparisons.  Rounding error is
not modelled: finite arithmetic is exact.  A square root whose exact value
is irrational is not representable as a rational and is also mapped to
`F.nf`; no theorem below depends on that branch.
-/

/-- A float value: an exact rational, or a non-finite result (NaN/inf). -/
inductive F
  | fin : ℚ → F
  | nf : F
deriving DecidableEq

/-- Addition; non-finite operands propagate. -/
def fadd : F → F → F
  | F.fin a, F.fin b => F.fin (a + b)
  | _, _ => F.nf

/-- Subtraction; non-finite operands propagate. -/
def fsub : F → F → F
  | F.fin a, F.fin b => F.fin (a - b)
  | _, _ => F.nf

/-- Multiplication; non-finite operands propagate. -/
def fmul : F → F → F
  | F.fin a, F.fin b => F.fin (a * b)
  | _, _ => F.nf

/-- Division; a zero divisor or non-finite operand yields a non-finite
result (IEEE `x/0` is `±inf` or `nan`). -/
def fdiv : F → F → F
  | F.fin a, F.fin b => if b = 0 then F.nf else F.fin (a / b)
  | _, _ => F.nf

/-- Absolute value (`np.abs`); `|nan| = nan`, `|±inf| = inf`. -/
def fabs : F → F
  | F.fin a => F.fin |a|
  | F.nf => F.nf

/-- Strict greater-than as the code uses it in pivot scans; any comparison
with a non-finite value is false, as for NaN. -/
def fgt : F → F → Bool
  | F.fin a, F.fin b => decide (b < a)
  | _, _ => false

/-- Non-strict less-or-equal used by the convergence test; any comparison
with a non-finite value is false, as for NaN. -/
def fle : F → F → Bool
  | F.fin a, F.fin b => decide (a ≤ b)
  | _, _ => false

/-- Exact rational square root, when it exists. -/
def ratSqrt (q : ℚ) : Option ℚ :=
  let sn := Nat.sqrt q.num.toNat
  let sd := Nat.sqrt q.den
  if sn * sn = q.num.toNat ∧ sd * sd = q.den then some ((sn : ℚ) / (sd : ℚ))
  else none

/-- Square root (`np.sqrt`): negative or non-finite input gives NaN; an
exactly-representable root is returned exactly; an irrational root is not
representable in this exact model and maps to `F.nf` (no theorem below
depends on that branch). -/
def fsqrt : F → F
  | F.nf => F.nf
  | F.fin q =>
    if q < 0 then F.nf
    else match ratSqrt q with
      | some r => F.fin r
      | none => F.nf

/-- A vector is a list of float values (`np.ndarray`, 1-d). -/
def Vec := List F
deriving DecidableEq

/-- A matrix is a list of rows (`np.ndarray`, 2-d, row major). -/
def Mat := List (List F)
deriving DecidableEq

/-- Row `i` of a matrix (`matrix[i]`). -/
def row (M : Mat) (i : Nat) : List F := M.getD i []

/-- Entry `matrix[i][j]`; out-of-range access never occurs in the source's
loops and is given the junk value `F.nf`. -/
def entry (M : Mat) (i j : Nat) : F := (row M i).getD j F.nf

/-- Component `v[i]` of a vector. -/
def vget (v : Vec) (i : Nat) : F := v.getD i F.nf

/-- Write entry `matrix[i][j] = x`. -/
def setEntry (M : Mat) (i j : Nat) (x : F) : Mat := M.set i ((row M i).set j x)

/-- An `n × n` zero matrix (`np.zeros((n, n))`). -/
def zerosMat (n : Nat) : Mat := List.replicate n (List.replicate n (F.fin 0))

/-- Lift a rational vector into the float model. -/
def finVec (v : List ℚ) : Vec := v.map F.fin

/-- Lift a rational matrix into the float model. -/
def finMat (M : List (List ℚ)) : Mat := M.map (fun r => r.map F.fin)

/-- Swap elements `i` and `j` of a list
(`a[[i, j]] = a[[j, i]]` on an ndarray). -/
def swapL (l : List F) (i j : Nat) : List F :=
  (l.set i (l.getD j F.nf)).set j (l.getD i F.nf)

/-- Swap rows `i` and `j` of a matrix. -/
def swapRows (M : Mat) (i j : Nat) : Mat :=
  (M.set i (row M j)).set j (row M i)

/-- Dot product `np.dot` of two equal-length vectors. -/
def dotF (a b : List F) : F := (List.zipWith fmul a b).foldl fadd (F.fin 0)

/-- Python `sum(f k for k in ks)` of float values (starts from the int 0). -/
def sumF (ks : List Nat) (f : Nat → F) : F :=
  ks.foldl (fun acc k => fadd acc (f k)) (F.fin 0)

/-- Pivot-row scan of `gauss_partial_pivoting`, step `i`: start with
`max_row = i` and replace it by `j ∈ [i+1, n)` exactly when
`abs(matrix[j][i]) > abs(matrix[max_row][i])` is strict. -/
def pivotRow (M : Mat) (i n : Nat) : Nat :=
  (List.range' (i + 1) (n - (i + 1))).foldl
    (fun mr j => if fgt (fabs (entry M j i)) (fabs (entry M mr i)) then j else mr) i

/-- One iteration of the outer loop of `gauss_partial_pivoting`: select the
pivot row, swap it (in the matrix and the vector), and eliminate column `i`
from every row below via `f = matrix[j][i] / matrix[i][i]`,
`matrix[j] -= f * matrix[i]`, `vector[j] -= f * vector[i]`. -/
def elimStep (n i : Nat) : Mat × Vec → Mat × Vec := fun s =>
  let mr := pivotRow s.1 i n
  let M1 := swapRows s.1 i mr
  let v1 := swapL s.2 i mr
  let piv := row M1 i
  let M2 := M1.mapIdx fun j r =>
    if i < j then
      let f := fdiv (entry M1 j i) (entry M1 i i)
      List.zipWith (fun x p => fsub x (fmul f p)) r piv
    else r
  let v2 := v1.mapIdx fun j x =>
    if i < j then
      let f := fdiv (entry M1 j i) (entry M1 i i)
      fsub x (fmul f (vget v1 i))
    else x
  (M2, v2)

/-- The forward phase of `gauss_partial_pivoting`.  The source performs the
row swaps and eliminations in place on the caller's `matrix` and `vector`
(no copy is taken), so this pair is exactly the content of the caller's two
arrays once the call returns. -/
def gaussElimState (M : Mat) (v : Vec) : Mat × Vec :=
  (List.range M.length).foldl (fun s i => elimStep M.length i s) (M, v)

/-- Back substitution, from row `n-1` up to row `0`:
`x[i] = (vector[i] - np.dot(matrix[i][i+1:], x[i+1:])) / matrix[i][i]`.
The accumulator holds the already-computed suffix `x[i+1:]`. -/
def backSubAux (M : Mat) (v : Vec) : Nat → List F → List F
  | 0, xs => xs
  | i + 1, xs =>
    backSubAux M v i
      (fdiv (fsub (vget v i) (dotF ((row M i).drop (i + 1)) xs)) (entry M i i) :: xs)

/-- Gaussian elimination with partial pivoting (`gauss_partial_pivoting`):
forward elimination followed by back substitution.  The source contains no
singularity check and no error path: it always returns a vector. -/
def gauss_partial_pivoting (M : Mat) (v : Vec) : Vec :=
  let s := gaussElimState M v
  backSubAux s.1 s.2 M.length []

/-- Scaled pivoting (`gauss_scaled_pivoting`): the source body is
`return gauss_partial_pivoting(matrix, vector)  # todo: implement`. -/
def gauss_scaled_pivoting (M : Mat) (v : Vec) : Vec :=
  gauss_partial_pivoting M v

/-- The body of the inner loop of `jacobi`, for component `j`:
`s = np.dot(A[j,:], x); s -= A[j,j]*x[j]; x[j] = (b[j] - s)/A[j,j]`.
The update is applied to `x` in place, so later components of the same
sweep read the value just written. -/
def jacobiSweepStep (A : Mat) (b : Vec) (x : Vec) (j : Nat) : Vec :=
  let s := fsub (dotF (row A j) x) (fmul (entry A j j) (vget x j))
  x.set j (fdiv (fsub (vget b j) s) (entry A j j))

/-- One full sweep (`for j in range(n)`) of `jacobi`'s inner loop. -/
def sweep (A : Mat) (b : Vec) (x : Vec) : Vec :=
  (List.range b.length).foldl (jacobiSweepStep A b) x

/-- The test `np.allclose(x, x0, atol=tol)`: component-wise
`|x[j] - x0[j]| <= atol + rtol * |x0[j]|` with numpy's default relative
tolerance `rtol = 1e-5` left in force (only `atol` is overridden at the
call site). -/
def npAllclose (x x0 : Vec) (atol : ℚ) : Bool :=
  (List.zip x x0).all fun p =>
    fle (fabs (fsub p.1 p.2)) (fadd (F.fin atol) (fmul (F.fin (1 / 100000)) (fabs p.2)))

/-- The iteration loop of `jacobi`: up to `maxiter` sweeps; after each
sweep, break when `np.allclose(x, x0, atol=tol)`, else set `x0 = x.copy()`
and continue; return the current `x`. -/
def jacobiLoop (A : Mat) (b : Vec) (tol : ℚ) : Nat → Vec → Vec → Vec
  | 0, x, _ => x
  | k + 1, x, x0 =>
    let x1 := sweep A b x
    if npAllclose x1 x0 tol then x1 else jacobiLoop A b tol k x1 x1

/-- The solver `jacobi(A, b, x0, tol, maxiter)`: the candidate solution is
initialized as `x = np.zeros_like(b)` and refined by in-place sweeps; the
caller's `x0` is used only inside the stopping test. -/
def jacobi (A : Mat) (b : Vec) (x0 : Vec) (tol : ℚ) (maxiter : Nat) : Vec :=
  jacobiLoop A b tol maxiter (List.replicate b.length (F.fin 0)) x0

/-- The solver `conjugate_gradient`: its entire body is
`return None  # type: ignore`. -/
def conjugate_gradient (_A : Mat) (_b _x0 : Vec) (_tol : ℚ) (_maxiter : Nat) :
    Option Vec := none

/-- The solver `gauss_seidel`: its entire body is `return None`. -/
def gauss_seidel (_A : Mat) (_b _x0 : Vec) (_tol : ℚ) (_maxiter : Nat) :
    Option Vec := none

/-- The factorizer `doolittle`: a single matrix `L` is filled in place; for
each `i`, first `L[i][j] = matrix[i][j] - Σ_{k<j} L[i][k]*L[j][k]` for
`j ≤ i`, then `L[j][i] = (matrix[j][i] - Σ_{k<i} L[i][k]*L[j][k]) / L[i][i]`
for `j ∈ [i, n)` (at `j = i` the right-hand side reads the old `L[i][i]`
before overwriting it, as Python evaluates the right-hand side first). -/
def doolittle (M : Mat) : Mat :=
  let n := M.length
  (List.range n).foldl
    (fun L i =>
      let L1 := (List.range (i + 1)).foldl
        (fun L j =>
          let s1 := sumF (List.range j) (fun k => fmul (entry L i k) (entry L j k))
          setEntry L i j (fsub (entry M i j) s1)) L
      (List.range' i (n - i)).foldl
        (fun L j =>
          let s2 := sumF (List.range i) (fun k => fmul (entry L i k) (entry L j k))
          setEntry L j i (fdiv (fsub (entry M j i) s2) (entry L i i))) L1)
    (zerosMat n)

/-- The factorizer `choleski`: for each `i` and `j ≤ i`, with
`s1 = Σ_{k<j} L[i][k]*L[j][k]`, set
`L[i][j] = np.sqrt(matrix[i][i] - s1)` when `i = j`, else
`L[i][j] = (matrix[i][j] - s1) / L[j][j]`. -/
def choleski (M : Mat) : Mat :=
  let n := M.length
  (List.range n).foldl
    (fun L i =>
      (List.range (i + 1)).foldl
        (fun L j =>
          let s1 := sumF (List.range j) (fun k => fmul (entry L i k) (entry L j k))
          setEntry L i j
            (if i = j then fsqrt (fsub (entry M i i) s1)
             else fdiv (fsub (entry M i j) s1) (entry L j j))) L)
    (zerosMat n)

/-- Transpose of a matrix, entrywise (used only to state `L·Lᵗ = A`). -/
def transposeM (M : Mat) (n : Nat) : Mat :=
  (List.range n).map fun i => (List.range n).map fun j => entry M j i

/-- Matrix product, entrywise (used only to state `L·Lᵗ = A`). -/
def matMulF (A B : Mat) (n : Nat) : Mat :=
  (List.range n).map fun i =>
    (List.range n).map fun j => sumF (List.range n) (fun k => fmul (entry A i k) (entry B k j))

/-- Componentwise closeness check: every component of `x` is a finite value
within `eps` of the corresponding target. -/
def closeVec (x : Vec) (target : List ℚ) (eps : ℚ) : Bool :=
  x.length = target.length &&
    (List.zip x target).all fun p =>
      match p.1 with
      | F.fin a => decide (|a - p.2| ≤ eps)
      | F.nf => false

/-- Modelled from the spec: scaled pivoting selects the pivot row by the
ratio of `|A[j][i]|` to a row-specific scale factor (the maximum absolute
entry of that row at the start) rather than by raw magnitude, keeping the
lowest row index on ties.  This rule is stated here only to compare it with
the code's `gauss_scaled_pivoting`, which delegates to partial pivoting. -/
def scaleFactor (M : Mat) (j : Nat) : F :=
  (row M j).foldl (fun acc x => if fgt (fabs x) acc then fabs x else acc) (F.fin 0)

/-- Modelled from the spec: the scaled-pivoting row selection (see
`scaleFactor`). -/
def scaledPivotRowSpec (M : Mat) (i n : Nat) : Nat :=
  (List.range' (i + 1) (n - (i + 1))).foldl
    (fun mr j =>
      if fgt (fdiv (fabs (entry M j i)) (scaleFactor M j))
             (fdiv (fabs (entry M mr i)) (scaleFactor M mr)) then j else mr) i

/-- The Jacobi update rule as the specification states it:
`x_new[j] = (b[j] - Σ_{k ≠ j} A[j][k]·x_old[k]) / A[j][j]`, every component
computed from the previous full iterate `x` only.  Stated here only to
compare it with the in-place sweep the code performs. -/
def jacobiSweepSpec (A : Mat) (b : Vec) (x : Vec) : Vec :=
  (List.range b.length).map fun j =>
    fdiv
      (fsub (vget b j)
        (sumF ((List.range b.length).filter (fun k => k ≠ j))
          (fun k => fmul (entry A j k) (vget x k))))
      (entry A j j)

/-- The spec's concrete scenario matrix `[[4,-1,0],[-1,4,-1],[0,-1,4]]`. -/
def A3 : Mat := finMat [[4, -1, 0], [-1, 4, -1], [0, -1, 4]]

/-- The spec's concrete scenario right-hand side `[15,10,10]`. -/
def b3 : Vec := finVec [15, 10, 10]

/-- Zero initial guess for the iterative runs on the concrete scenario. -/
def z3 : Vec := finVec [0, 0, 0]

/-- C1 (counterexample): on the spec's concrete scenario the claim fails at
an explicit input: the elimination solver's result is not within `1e-4` of
the spec's stated target `[4.4667, 2.8667, 3.2167]` (that vector does not
solve the system), the iterative solver's result is not within `1e-4` of it
either, and `conjugate_gradient` returns `None` rather than any vector. -/
theorem claim1_cex :
    closeVec (gauss_partial_pivoting A3 b3)
      [44667/10000, 28667/10000, 32167/10000] (1/10000) = false ∧
    closeVec (jacobi A3 b3 z3 (1/1000000) 100)
      [44667/10000, 28667/10000, 32167/10000] (1/10000) = false ∧
    conjugate_gradient A3 b3 z3 (1/1000000) 100 = none := by
  refine ⟨?_, ?_, rfl⟩ <;> with_unfolding_all decide

/-- C1 (amended): on `A = [[4,-1,0],[-1,4,-1],[0,-1,4]]`, `b = [15,10,10]`
the elimination solver returns exactly the true solution
`[275/56, 65/14, 205/56] ≈ [4.9107, 4.6429, 3.6607]`, the `jacobi` solver
with tolerance `1e-6` (zero initial guess, 100-iteration budget) returns a
vector within `1e-4` of that true solution, and `conjugate_gradient` is an
unimplemented placeholder returning `None`. -/
theorem claim1_amended :
    gauss_partial_pivoting A3 b3 = finVec [275/56, 65/14, 205/56] ∧
    closeVec (jacobi A3 b3 z3 (1/1000000) 100)
      [275/56, 65/14, 205/56] (1/10000) = true ∧
    conjugate_gradient A3 b3 z3 (1/1000000) 100 = none := by
  refine ⟨?_, ?_, rfl⟩ <;> with_unfolding_all decide

/-- C2: on the singular system `A = [[1,2],[2,4]]`, `b = [1,2]` the
elimination leaves the caller's arrays as `[[2,4],[0,0]]`, `[2,0]`; at
pivot step 1 the pivot-column magnitude is exactly `0`, yet the solver has
no singularity check: back substitution divides by zero and the function
returns a vector of non-finite values instead of any error. -/
theorem claim2_singular_input_returns_nonfinite :
    gaussElimState (finMat [[1, 2], [2, 4]]) (finVec [1, 2]) =
      (finMat [[2, 4], [0, 0]], finVec [2, 0]) ∧
    fabs (entry (gaussElimState (finMat [[1, 2], [2, 4]]) (finVec [1, 2])).1 1 1) = F.fin 0 ∧
    gauss_partial_pivoting (finMat [[1, 2], [2, 4]]) (finVec [1, 2]) = [F.nf, F.nf] := by
  refine ⟨?_, ?_, ?_⟩ <;> with_unfolding_all decide

/-- C3: the sweep of `jacobi` is not the claimed Jacobi update: on
`A = [[2,0],[1,2]]`, `b = [2,3]`, previous iterate `[0,0]`, the code's
in-place sweep computes `x[1]` from the just-updated `x[0]` and yields
`[1, 1]`, while the claimed update rule (every component from the previous
full iterate only) yields `[1, 3/2]`. -/
theorem claim3_sweep_uses_current_components :
    sweep (finMat [[2, 0], [1, 2]]) (finVec [2, 3]) (finVec [0, 0]) =
      finVec [1, 1] ∧
    jacobiSweepSpec (finMat [[2, 0], [1, 2]]) (finVec [2, 3]) (finVec [0, 0]) =
      finVec [1, 3/2] ∧
    finVec [1, 1] ≠ finVec [1, 3/2] := by
  refine ⟨?_, ?_, ?_⟩ <;> with_unfolding_all decide

/-- C4: `doolittle` returns a single matrix, not a pair `(L, U)`, and that
matrix cannot reconstruct the input: two distinct invertible diagonal
matrices are both mapped to the identity, so no `L·U = A` factorization is
recoverable from the output. -/
theorem claim4_doolittle_collapses_inputs :
    doolittle (finMat [[2, 0], [0, 2]]) = finMat [[1, 0], [0, 1]] ∧
    doolittle (finMat [[3, 0], [0, 5]]) = finMat [[1, 0], [0, 1]] ∧
    finMat [[2, 0], [0, 2]] ≠ finMat [[3, 0], [0, 5]] := by
  refine ⟨?_, ?_, ?_⟩ <;> with_unfolding_all decide

/-- C5: on the symmetric, non-positive-definite `A = [[4,0],[0,-1]]` the
factorizer `choleski` silently takes the square root of `-1` and returns a
matrix containing a non-finite value — no error of any kind is raised.  On
the symmetric positive-definite `[[4,2],[2,5]]` it does return `L` with
`L·Lᵗ = A` exactly. -/
theorem claim5_choleski_nan_instead_of_error :
    choleski (finMat [[4, 0], [0, -1]]) = [[F.fin 2, F.fin 0], [F.fin 0, F.nf]] ∧
    choleski (finMat [[4, 2], [2, 5]]) = finMat [[2, 0], [1, 2]] ∧
    matMulF (choleski (finMat [[4, 2], [2, 5]]))
        (transposeM (choleski (finMat [[4, 2], [2, 5]])) 2) 2 =
      finMat [[4, 2], [2, 5]] := by
  refine ⟨?_, ?_, ?_⟩ <;> with_unfolding_all decide

/-- C6: `gauss_scaled_pivoting` is a wholesale alias of
`gauss_partial_pivoting` (its body delegates for every input); it
implements no scaled rule of its own, and the spec's scaled ratio rule
genuinely differs: on `[[1,10],[4,100]]` at column 0 the scaled rule
selects row 0 while the code's raw-magnitude rule selects row 1. -/
theorem claim6_scaled_is_alias :
    (∀ (M : Mat) (v : Vec), gauss_scaled_pivoting M v = gauss_partial_pivoting M v) ∧
    scaledPivotRowSpec (finMat [[1, 10], [4, 100]]) 0 2 = 0 ∧
    pivotRow (finMat [[1, 10], [4, 100]]) 0 2 = 1 := by
  refine ⟨fun M v => rfl, ?_, ?_⟩ <;> with_unfolding_all decide

/-- C7 (counterexample): the elimination does not leave the caller's
arrays unchanged: on `A = [[1,2],[3,4]]`, `b = [1,1]` the caller's matrix
and vector after the call differ from the originals. -/
theorem claim7_cex :
    gaussElimState (finMat [[1, 2], [3, 4]]) (finVec [1, 1]) ≠
      (finMat [[1, 2], [3, 4]], finVec [1, 1]) := by
  with_unfolding_all decide

/-- C7 (amended): the row swaps and elimination updates are applied in
place to the caller's matrix and vector, which after the call hold the
pivoted, eliminated system: on `A = [[1,2],[3,4]]`, `b = [1,1]` they end as
`[[3,4],[0,2/3]]` and `[1, 2/3]`. -/
theorem claim7_amended :
    gaussElimState (finMat [[1, 2], [3, 4]]) (finVec [1, 1]) =
      (finMat [[3, 4], [0, 2/3]], finVec [1, 2/3]) := by
  with_unfolding_all decide

/-- C8 (counterexample): the solver's stopping test is not the purely
absolute component-wise test the claim states.  On `A = [[2,1],[1,2]]`,
`b = [300,300]`, `x0 = [150.001, 75.0005]`, `tol = 1e-4`, the first sweep
gives `[150, 75]`; the code's `np.allclose(x, x0, atol=tol)` (default
relative tolerance `1e-5` still active) is satisfied, so the solver stops
and returns `[150, 75]` even though `|150 - 150.001| = 1e-3 > tol`, and
even though one more sweep would have changed the iterate. -/
theorem claim8_cex :
    jacobi (finMat [[2, 1], [1, 2]]) (finVec [300, 300])
        (finVec [150001/1000, 150001/2000]) (1/10000) 100 = finVec [150, 75] ∧
    npAllclose (finVec [150, 75]) (finVec [150001/1000, 150001/2000]) (1/10000) = true ∧
    ¬ (|(150 : ℚ) - 150001/1000| ≤ 1/10000) ∧
    sweep (finMat [[2, 1], [1, 2]]) (finVec [300, 300]) (finVec [150, 75]) ≠
      finVec [150, 75] := by
  refine ⟨?_, ?_, ?_, ?_⟩ <;> with_unfolding_all decide

/-- The rational value at row `j`, column `i` of a rational matrix; used to
state pivot-selection properties of the lifted matrix. -/
def colEntry (Q : List (List ℚ)) (i j : Nat) : ℚ := (Q.getD j []).getD i 0

theorem row_finMat (Q : List (List ℚ)) (j : Nat) :
    row (finMat Q) j = (Q.getD j []).map F.fin := by
  show (Q.map fun r => r.map F.fin).getD j [] = _
  rcases Nat.lt_or_ge j Q.length with h | h
  · rw [List.getD_eq_getElem?_getD, List.getElem?_map, List.getD_eq_getElem?_getD,
      List.getElem?_eq_getElem h]
    simp
  · rw [List.getD_eq_default _ _ (by simpa using h), List.getD_eq_default _ _ h]
    rfl

theorem getD_map_fin (r : List ℚ) (i : Nat) (hi : i < r.length) :
    (r.map F.fin).getD i F.nf = F.fin (r.getD i 0) := by
  rw [List.getD_eq_getElem?_getD, List.getElem?_map, List.getD_eq_getElem?_getD,
    List.getElem?_eq_getElem hi]
  simp

theorem entry_finMat (Q : List (List ℚ)) (j i : Nat) (hi : i < (Q.getD j []).length) :
    entry (finMat Q) j i = F.fin ((Q.getD j []).getD i 0) := by
  show (row (finMat Q) j).getD i F.nf = _
  rw [row_finMat, getD_map_fin _ _ hi]

theorem rowLen_of_lt (Q : List (List ℚ)) (i : Nat) (hrow : ∀ r ∈ Q, i < r.length)
    (j : Nat) (hj : j < Q.length) : i < (Q.getD j []).length := by
  have hmem : Q.getD j [] ∈ Q := by
    rw [List.getD_eq_getElem?_getD, List.getElem?_eq_getElem hj]
    exact List.getElem_mem hj
  exact hrow _ hmem

theorem fgt_fin_fin (a b : ℚ) : fgt (F.fin a) (F.fin b) = decide (b < a) := rfl

theorem pivotScan_first_max (Q : List (List ℚ)) (i : Nat)
    (hrow : ∀ r ∈ Q, i < r.length) :
    ∀ (len s mr : Nat), s + len ≤ Q.length → i ≤ mr → mr < s →
    (∀ j, i ≤ j → j < s → |colEntry Q i j| ≤ |colEntry Q i mr|) →
    (∀ j, i ≤ j → j < mr → |colEntry Q i j| < |colEntry Q i mr|) →
    (i ≤ (List.range' s len).foldl
        (fun mr j => if fgt (fabs (entry (finMat Q) j i)) (fabs (entry (finMat Q) mr i))
          then j else mr) mr ∧
      (List.range' s len).foldl
        (fun mr j => if fgt (fabs (entry (finMat Q) j i)) (fabs (entry (finMat Q) mr i))
          then j else mr) mr < s + len ∧
      (∀ j, i ≤ j → j < s + len → |colEntry Q i j| ≤
        |colEntry Q i ((List.range' s len).foldl
          (fun mr j => if fgt (fabs (entry (finMat Q) j i)) (fabs (entry (finMat Q) mr i))
            then j else mr) mr)|) ∧
      (∀ j, i ≤ j → j < (List.range' s len).foldl
          (fun mr j => if fgt (fabs (entry (finMat Q) j i)) (fabs (entry (finMat Q) mr i))
            then j else mr) mr → |colEntry Q i j| <
        |colEntry Q i ((List.range' s len).foldl
          (fun mr j => if fgt (fabs (entry (finMat Q) j i)) (fabs (entry (finMat Q) mr i))
            then j else mr) mr)|)) := by
  intro len
  induction len with
  | zero =>
    intro s mr hlen hile hlt hle hstrict
    exact ⟨hile, by simpa using hlt, by simpa using hle, hstrict⟩
  | succ len ih =>
    intro s mr hlen hile hlt hle hstrict
    have hsQ : s < Q.length := by omega
    have hmrQ : mr < Q.length := by omega
    have hes : entry (finMat Q) s i = F.fin (colEntry Q i s) :=
      entry_finMat Q s i (rowLen_of_lt Q i hrow s hsQ)
    have hemr : entry (finMat Q) mr i = F.fin (colEntry Q i mr) :=
      entry_finMat Q mr i (rowLen_of_lt Q i hrow mr hmrQ)
    rw [List.range'_succ, List.foldl_cons]
    by_cases hcmp : |colEntry Q i mr| < |colEntry Q i s|
    · have hstep :
          (if fgt (fabs (entry (finMat Q) s i)) (fabs (entry (finMat Q) mr i))
            then s else mr) = s := by
        rw [hes, hemr]
        simp only [fabs, fgt_fin_fin]
        simp [hcmp]
      rw [hstep]
      have hout := ih (s + 1) s (by omega) (by omega) (by omega)
        (fun j hij hjs => by
          rcases Nat.lt_or_ge j s with h | h
          · exact le_of_lt (lt_of_le_of_lt (hle j hij h) hcmp)
          · have : j = s := by omega
            subst this; exact le_refl _)
        (fun j hij hjs => lt_of_le_of_lt (hle j hij hjs) hcmp)
      exact ⟨hout.1, Nat.lt_of_lt_of_le hout.2.1 (by omega),
        fun j hij hjn => hout.2.2.1 j hij (by omega), hout.2.2.2⟩
    · have hstep :
          (if fgt (fabs (entry (finMat Q) s i)) (fabs (entry (finMat Q) mr i))
            then s else mr) = mr := by
        rw [hes, hemr]
        simp only [fabs, fgt_fin_fin]
        simp [hcmp]
      rw [hstep]
      have hout := ih (s + 1) mr (by omega) hile (by omega)
        (fun j hij hjs => by
          rcases Nat.lt_or_ge j s with h | h
          · exact hle j hij h
          · have : j = s := by omega
            subst this; exact le_of_not_lt hcmp)
        hstrict
      exact ⟨hout.1, Nat.lt_of_lt_of_le hout.2.1 (by omega),
        fun j hij hjn => hout.2.2.1 j hij (by omega), hout.2.2.2⟩

/-- C9: at every pivot step `i` of the elimination solver, the pivot scan
over rows `i..n-1` of (the lifted rational matrix) `Q` selects a row of
maximal absolute value in column `i`, and among several rows sharing that
maximum it selects the lowest index: every earlier candidate row is
strictly smaller in absolute value, and any row achieving the maximum has
index at least the selected one. -/
theorem claim9_pivot_first_max (Q : List (List ℚ)) (i n : Nat)
    (hin : i < n) (hn : n ≤ Q.length) (hrow : ∀ r ∈ Q, i < r.length) :
    i ≤ pivotRow (finMat Q) i n ∧ pivotRow (finMat Q) i n < n ∧
    (∀ j, i ≤ j → j < n →
      |colEntry Q i j| ≤ |colEntry Q i (pivotRow (finMat Q) i n)|) ∧
    (∀ j, i ≤ j → j < pivotRow (finMat Q) i n →
      |colEntry Q i j| < |colEntry Q i (pivotRow (finMat Q) i n)|) ∧
    (∀ j, i ≤ j → j < n →
      |colEntry Q i j| = |colEntry Q i (pivotRow (finMat Q) i n)| →
      pivotRow (finMat Q) i n ≤ j) := by
  have hsum : (i + 1) + (n - (i + 1)) = n := by omega
  have hout := pivotScan_first_max Q i hrow (n - (i + 1)) (i + 1) i
    (by omega) (le_refl i) (by omega)
    (fun j hij hjs => by
      have : j = i := by omega
      subst this; exact le_refl _)
    (fun j hij hjs => by omega)
  rw [hsum] at hout
  have hpr : pivotRow (finMat Q) i n = (List.range' (i + 1) (n - (i + 1))).foldl
      (fun mr j => if fgt (fabs (entry (finMat Q) j i)) (fabs (entry (finMat Q) mr i))
        then j else mr) i := rfl
  rw [hpr]
  refine ⟨hout.1, hout.2.1, hout.2.2.1, hout.2.2.2, fun j hij hjn heq => ?_⟩
  by_contra hcon
  have hjlt : j < (List.range' (i + 1) (n - (i + 1))).foldl
      (fun mr j => if fgt (fabs (entry (finMat Q) j i)) (fabs (entry (finMat Q) mr i))
        then j else mr) i := by omega
  exact absurd heq (ne_of_lt (hout.2.2.2 j hij hjlt))

/-- C9 (witness): on `Q = [[2,5],[-2,7]]` at pivot step 0 the two rows tie
in absolute value (`|2| = |-2|`) and the scan selects row 0, the lowest
index, with every property of the pivot theorem instantiated. -/
theorem claim9_pivot_first_max_witness :
    (0 < 2 ∧ 2 ≤ ([[(2:ℚ), 5], [-2, 7]] : List (List ℚ)).length ∧
      ∀ r ∈ ([[(2:ℚ), 5], [-2, 7]] : List (List ℚ)), 0 < r.length) ∧
    (0 ≤ pivotRow (finMat [[2, 5], [-2, 7]]) 0 2 ∧
      pivotRow (finMat [[2, 5], [-2, 7]]) 0 2 < 2 ∧
      (∀ j, 0 ≤ j → j < 2 →
        |colEntry [[2, 5], [-2, 7]] 0 j| ≤
          |colEntry [[2, 5], [-2, 7]] 0 (pivotRow (finMat [[2, 5], [-2, 7]]) 0 2)|) ∧
      (∀ j, 0 ≤ j → j < pivotRow (finMat [[2, 5], [-2, 7]]) 0 2 →
        |colEntry [[2, 5], [-2, 7]] 0 j| <
          |colEntry [[2, 5], [-2, 7]] 0 (pivotRow (finMat [[2, 5], [-2, 7]]) 0 2)|) ∧
      (∀ j, 0 ≤ j → j < 2 →
        |colEntry [[2, 5], [-2, 7]] 0 j| =
          |colEntry [[2, 5], [-2, 7]] 0 (pivotRow (finMat [[2, 5], [-2, 7]]) 0 2)| →
        pivotRow (finMat [[2, 5], [-2, 7]]) 0 2 ≤ j)) :=
  ⟨⟨by omega, by simp, by simp⟩,
    claim9_pivot_first_max [[2, 5], [-2, 7]] 0 2 (by omega) (by simp) (by simp)⟩

theorem jacobiLoop_iterate (A : Mat) (b : Vec) (tol : ℚ) :
    ∀ (fuel : Nat) (x x0 : Vec), ∃ k, k ≤ fuel ∧
      jacobiLoop A b tol fuel x x0 = (sweep A b)^[k] x := by
  intro fuel
  induction fuel with
  | zero => exact fun x x0 => ⟨0, Nat.le_refl 0, rfl⟩
  | succ n ih =>
    intro x x0
    by_cases h : npAllclose (sweep A b x) x0 tol = true
    · refine ⟨1, Nat.succ_le_succ (Nat.zero_le n), ?_⟩
      simp [jacobiLoop, h]
    · obtain ⟨k, hk, he⟩ := ih (sweep A b x) (sweep A b x)
      refine ⟨k + 1, Nat.succ_le_succ hk, ?_⟩
      rw [Function.iterate_succ_apply]
      simp only [jacobiLoop]
      rw [if_neg h]
      exact he

/-- C10: for every `A`, `b`, `x0`, tolerance and iteration budget, the
result of `jacobi` is some number `k ≤ maxiter` of in-place sweeps applied
to the all-zeros vector shaped like `b` — the caller's initial guess `x0`
never enters the update computation, only the stopping test that selects
`k`. -/
theorem claim10_jacobi_starts_from_zeros (A : Mat) (b : Vec) (x0 : Vec) (tol : ℚ)
    (maxiter : Nat) :
    ∃ k, k ≤ maxiter ∧
      jacobi A b x0 tol maxiter =
        (sweep A b)^[k] (List.replicate b.length (F.fin 0)) :=
  jacobiLoop_iterate A b tol maxiter (List.replicate b.length (F.fin 0)) x0

theorem allclose_pointwise (x y atol : ℚ) :
    fle (fabs (fsub (F.fin x) (F.fin y)))
        (fadd (F.fin atol) (fmul (F.fin (1/100000)) (fabs (F.fin y)))) =
      decide (|x - y| ≤ atol + |y| / 100000) := by
  simp only [fsub, fabs, fmul, fadd, fle]
  congr 1
  rw [show atol + 1/100000 * |y| = atol + |y| / 100000 from by ring]

theorem npAllclose_cons (x y : ℚ) (xs ys : List ℚ) (atol : ℚ) :
    npAllclose (finVec (x :: xs)) (finVec (y :: ys)) atol =
      (decide (|x - y| ≤ atol + |y| / 100000) &&
        npAllclose (finVec xs) (finVec ys) atol) := by
  simp only [npAllclose, finVec, List.map_cons, List.zip_cons_cons, List.all_cons]
  rw [allclose_pointwise]

/-- C8 (amended): the solver's stopping test, `np.allclose(x, x0, atol=tol)`
with numpy's default relative tolerance `1e-5` still in force, succeeds
exactly when every component satisfies
`|x[j] - x0[j]| ≤ tol + |x0[j]| / 100000` — a component-wise comparison of
consecutive iterates with an absolute term plus a relative
(magnitude-scaled) term, not a purely absolute test. -/
theorem claim8_amended (a b : List ℚ) (atol : ℚ) (h : a.length = b.length) :
    npAllclose (finVec a) (finVec b) atol = true ↔
      ∀ j, j < a.length →
        |a.getD j 0 - b.getD j 0| ≤ atol + |b.getD j 0| / 100000 := by
  induction a generalizing b with
  | nil =>
    cases b with
    | nil => simp [npAllclose, finVec]
    | cons y ys => simp at h
  | cons x xs ih =>
    cases b with
    | nil => simp at h
    | cons y ys =>
      have h' : xs.length = ys.length := by simpa using h
      rw [npAllclose_cons, Bool.and_eq_true, decide_eq_true_eq, ih ys h']
      constructor
      · rintro ⟨h0, hrest⟩ j hj
        cases j with
        | zero => simpa using h0
        | succ j => simpa using hrest j (Nat.lt_of_succ_lt_succ hj)
      · intro hall
        refine ⟨by simpa using hall 0 (Nat.succ_pos _), fun j hj => ?_⟩
        simpa using hall (j + 1) (Nat.succ_lt_succ hj)

/-- C8 (amended, witness): the characterization of the stopping test at the
concrete input `x = [150, 75]`, `x0 = [150.001, 75.0005]`, `tol = 1e-4`
from the counterexample run. -/
theorem claim8_amended_witness :
    ([(150 : ℚ), 75].length = [(150001 : ℚ)/1000, 150001/2000].length) ∧
    (npAllclose (finVec [150, 75]) (finVec [150001/1000, 150001/2000]) (1/10000) = true ↔
      ∀ j, j < [(150 : ℚ), 75].length →
        |[(150 : ℚ), 75].getD j 0 - [(150001 : ℚ)/1000, 150001/2000].getD j 0| ≤
          1/10000 + |[(150001 : ℚ)/1000, 150001/2000].getD j 0| / 100000) :=
  ⟨rfl, claim8_amended [150, 75] [150001/1000, 150001/2000] (1/10000) rfl⟩
